import Mathlib

/-!
Shallow embedding of the OpenSlide Rust components under verification:

* `src/rust/src/cache.rs` — the size-bounded LRU cache (`_LruCache` /
  `LruCache`).  The `LinkedHashMap` from the `linked_hash_map` crate is
  modelled as an association list in insertion order, front =
  least-recently-used, back = most-recently-used.  The `Mutex` wrapper
  only serializes access; the sequential semantics embedded here is the
  body of each operation with the lock held, written in explicit
  state-passing style.  Rust `usize` arithmetic is modelled with `Nat`
  (`-` is truncated subtraction, exactly like the panic-free path of the
  Rust code under the size-accounting invariant).

* `src/rust/src/hash.rs` — the `QuickHash1` accumulator.  The external
  `sha2::Sha256` hasher state is modelled as the list of bytes absorbed
  so far; producing the hex digest applies an abstract digest function
  to that list.  The filesystem is an explicit oracle
  `String → Option (List Nat)`: `none` models a path that cannot be
  opened or read, `some bytes` a readable file with those contents.

* `src/rust/src/util.rs` — the `FileSlice` bounded reader.  The `File`
  with its cursor is modelled as `content` plus `pos`; `std::io::copy`
  draining a `FileSlice` yields the bytes from the seek position capped
  by the remaining allowance.
-/

/-- Model of `struct CacheItem<V> { entry: Arc<V>, size: usize }`.  The
`Arc` reference counting is immaterial to the cache's functional
behaviour; `entry` holds the value. -/
structure CacheItem (V : Type) where
  entry : V
  size : Nat
deriving Repr, DecidableEq

/-- Model of `struct _LruCache<K, V>`: the `LinkedHashMap` as an
association list in recency order (front = least recently used), plus
the `capacity` and `total_size` counters. -/
structure LruCache (K V : Type) where
  lru : List (K × CacheItem V)
  capacity : Nat
  total_size : Nat
deriving Repr, DecidableEq

/-- `LinkedHashMap::remove(&key)`: removes the entry for `key` (keys are
unique in a `LinkedHashMap`) and returns it together with the map with
the entry removed; `(none, l)` when the key is absent. -/
def lhmRemove {K V : Type} [DecidableEq K] :
    List (K × CacheItem V) → K → Option (CacheItem V) × List (K × CacheItem V)
  | [], _ => (none, [])
  | (k', it) :: rest, k =>
    if k' = k then (some it, rest)
    else
      let r := lhmRemove rest k
      (r.1, (k', it) :: r.2)

/-- `LinkedHashMap::insert(key, item)`: if the key is already present
its value is replaced in place, otherwise the new entry is appended at
the back (most-recently-used end). -/
def lhmInsert {K V : Type} [DecidableEq K] :
    List (K × CacheItem V) → K → CacheItem V → List (K × CacheItem V)
  | [], k, it => [(k, it)]
  | (k', it') :: rest, k, it =>
    if k' = k then (k, it) :: rest
    else (k', it') :: lhmInsert rest k it

/-- `LinkedHashMap::get_refresh(&key)`: on a hit returns the entry and
moves it to the back of the recency order (observably, remove followed
by push-back); on a miss the map is unchanged. -/
def lhmGetRefresh {K V : Type} [DecidableEq K]
    (l : List (K × CacheItem V)) (k : K) :
    Option (CacheItem V) × List (K × CacheItem V) :=
  match lhmRemove l k with
  | (some it, rest) => (some it, rest ++ [(k, it)])
  | (none, _) => (none, l)

/-- The eviction loop of `_LruCache::_shrink_to_fit`, recursing on the
recency list: while `total_size + reserve > capacity`, pop the front
entry and subtract its size; `pop_front` returning `None` (empty list)
breaks the loop.  Returns the final `(total_size, lru)` pair. -/
def shrinkAux {K V : Type} (capacity reserve : Nat) :
    List (K × CacheItem V) → Nat → Nat × List (K × CacheItem V)
  | [], total => (total, [])
  | (k, it) :: rest, total =>
    if total + reserve > capacity then
      shrinkAux capacity reserve rest (total - it.size)
    else (total, (k, it) :: rest)

/-- `_LruCache::_shrink_to_fit(reserve)`: drop least-recently-used
entries to clear enough cache space to add `reserve` bytes. -/
def LruCache.shrink_to_fit {K V : Type} (c : LruCache K V) (reserve : Nat) :
    LruCache K V :=
  let r := shrinkAux c.capacity reserve c.lru c.total_size
  { c with lru := r.2, total_size := r.1 }

/-- `LruCache::new(capacity_in_bytes)`: an empty cache with the given
capacity and `total_size = 0`. -/
def LruCache.new {K V : Type} (capacity_in_bytes : Nat) : LruCache K V :=
  { lru := [], capacity := capacity_in_bytes, total_size := 0 }

/-- `LruCache::get_capacity()`: returns the configured capacity. -/
def LruCache.get_capacity {K V : Type} (c : LruCache K V) : Nat :=
  c.capacity

/-- `LruCache::set_capacity(capacity_in_bytes)`: installs the new
capacity, then shrinks to fit with `reserve = 0`. -/
def LruCache.set_capacity {K V : Type} (c : LruCache K V)
    (capacity_in_bytes : Nat) : LruCache K V :=
  LruCache.shrink_to_fit { c with capacity := capacity_in_bytes } 0

/-- `LruCache::put(key, val, size)`: remove the key if it exists
(subtracting its size), shrink to fit `size` bytes, insert the new
entry at the back and add `size` to `total_size`; returns the new cache
state together with the (shared reference to the) stored value. -/
def LruCache.put {K V : Type} [DecidableEq K] (c : LruCache K V)
    (key : K) (val : V) (size : Nat) : LruCache K V × V :=
  let c1 :=
    match lhmRemove c.lru key with
    | (some old_val, rest) =>
      { c with lru := rest, total_size := c.total_size - old_val.size }
    | (none, _) => c
  let c2 := c1.shrink_to_fit size
  let c3 := { c2 with
    lru := lhmInsert c2.lru key ⟨val, size⟩,
    total_size := c2.total_size + size }
  (c3, val)

/-- `LruCache::get(&key)`: `none` on a miss; on a hit, refreshes the
entry to most-recently-used and returns its value. -/
def LruCache.get {K V : Type} [DecidableEq K] (c : LruCache K V)
    (key : K) : Option V × LruCache K V :=
  match lhmGetRefresh c.lru key with
  | (some it, l) => (some it.entry, { c with lru := l })
  | (none, _) => (none, c)

/-- Sum of the declared sizes of the entries of a recency list. -/
def listSize {K V : Type} (l : List (K × CacheItem V)) : Nat :=
  (l.map (fun p => p.2.size)).sum

/-- The representation invariant of the cache: `total_size` is the exact
sum of the resident entries' declared sizes, and keys are unique (as in
a `LinkedHashMap`). -/
def LruCache.Inv {K V : Type} (c : LruCache K V) : Prop :=
  c.total_size = listSize c.lru ∧ (c.lru.map Prod.fst).Nodup

/-- The cache operations exposed by `LruCache` (other than `new`), for
stating properties of arbitrary operation sequences. -/
inductive CacheOp (K V : Type) where
  | put (k : K) (v : V) (s : Nat)
  | get (k : K)
  | set_capacity (n : Nat)
  | get_capacity
deriving Repr

/-- Run one cache operation, keeping only the state (returned values
are dropped; `get_capacity` does not change the state). -/
def applyOp {K V : Type} [DecidableEq K] (c : LruCache K V) :
    CacheOp K V → LruCache K V
  | .put k v s => (c.put k v s).1
  | .get k => (c.get k).2
  | .set_capacity n => c.set_capacity n
  | .get_capacity => c

/-- Run a sequence of cache operations from a starting state. -/
def runOps {K V : Type} [DecidableEq K] (c : LruCache K V) :
    List (CacheOp K V) → LruCache K V
  | [] => c
  | op :: rest => runOps (applyOp c op) rest

/-- Run a sequence of `put` operations (key, value, size) from a
starting state. -/
def runPuts {K V : Type} [DecidableEq K] (c : LruCache K V) :
    List (K × V × Nat) → LruCache K V
  | [] => c
  | (k, v, s) :: rest => runPuts (c.put k v s).1 rest

theorem listSize_cons {K V : Type} (k : K) (it : CacheItem V)
    (l : List (K × CacheItem V)) :
    listSize ((k, it) :: l) = it.size + listSize l := by
  simp [listSize]

theorem listSize_append {K V : Type} (l1 l2 : List (K × CacheItem V)) :
    listSize (l1 ++ l2) = listSize l1 + listSize l2 := by
  simp [listSize]

/-- Full characterization of `lhmRemove`: on a hit it returns the stored
item, the removed list accounts for exactly the remaining sizes, its key
list is a sublist of the original, and (under unique keys) the key is
gone; on a miss the list is returned unchanged and the key was absent. -/
theorem lhmRemove_spec {K V : Type} [DecidableEq K] (k : K) :
    ∀ l : List (K × CacheItem V),
      (∃ it rest, lhmRemove l k = (some it, rest) ∧
        listSize l = it.size + listSize rest ∧
        (rest.map Prod.fst).Sublist (l.map Prod.fst) ∧
        ((l.map Prod.fst).Nodup → k ∉ rest.map Prod.fst)) ∨
      (lhmRemove l k = (none, l) ∧ k ∉ l.map Prod.fst) := by
  intro l
  induction l with
  | nil => exact Or.inr ⟨rfl, by simp⟩
  | cons p rest ih =>
    obtain ⟨k', it⟩ := p
    by_cases hk : k' = k
    · subst hk
      refine Or.inl ⟨it, rest, ?_, ?_, ?_, ?_⟩
      · simp [lhmRemove]
      · simp [listSize]
      · exact List.sublist_cons_self _ _
      · intro hnd
        simp only [List.map_cons, List.nodup_cons] at hnd
        exact hnd.1
    · rcases ih with ⟨it0, rest0, heq, hsz, hsub, hnm⟩ | ⟨heq, hnm⟩
      · refine Or.inl ⟨it0, (k', it) :: rest0, ?_, ?_, ?_, ?_⟩
        · simp only [lhmRemove, if_neg hk, heq]
        · rw [listSize_cons, listSize_cons, hsz]; omega
        · exact List.Sublist.cons₂ _ hsub
        · intro hnd
          simp only [List.map_cons, List.nodup_cons] at hnd
          simp only [List.map_cons, List.mem_cons, not_or]
          exact ⟨fun he => hk he.symm, hnm hnd.2⟩
      · refine Or.inr ⟨?_, ?_⟩
        · simp only [lhmRemove, if_neg hk, heq]
        · simp only [List.map_cons, List.mem_cons, not_or]
          exact ⟨fun he => hk he.symm, hnm⟩

/-- Removing a key that sits (only) at the back of the list yields the
stored item and the front part unchanged. -/
theorem lhmRemove_append_self {K V : Type} [DecidableEq K] {k : K}
    (it : CacheItem V) :
    ∀ {l : List (K × CacheItem V)}, k ∉ l.map Prod.fst →
      lhmRemove (l ++ [(k, it)]) k = (some it, l) := by
  intro l
  induction l with
  | nil => intro _; simp [lhmRemove]
  | cons p rest ih =>
    obtain ⟨k', it'⟩ := p
    intro h
    simp only [List.map_cons, List.mem_cons, not_or] at h
    have hk : ¬k' = k := fun he => h.1 he.symm
    simp only [List.cons_append, lhmRemove, if_neg hk, List.append_eq, ih h.2]

/-- Inserting a key that is absent appends the entry at the back. -/
theorem lhmInsert_not_mem {K V : Type} [DecidableEq K] {k : K}
    (it : CacheItem V) :
    ∀ {l : List (K × CacheItem V)}, k ∉ l.map Prod.fst →
      lhmInsert l k it = l ++ [(k, it)] := by
  intro l
  induction l with
  | nil => intro _; rfl
  | cons p rest ih =>
    obtain ⟨k', it'⟩ := p
    intro h
    simp only [List.map_cons, List.mem_cons, not_or] at h
    have hk : ¬k' = k := fun he => h.1 he.symm
    simp only [lhmInsert, if_neg hk, ih h.2, List.cons_append]

/-- The eviction loop keeps the running total equal to the sum of the
remaining sizes, stops only when the target inequality holds or the
list is empty, and only drops entries from the front. -/
theorem shrinkAux_spec {K V : Type} (cap r : Nat) :
    ∀ (l : List (K × CacheItem V)) (total : Nat), total = listSize l →
      (shrinkAux cap r l total).1 = listSize (shrinkAux cap r l total).2 ∧
      ((shrinkAux cap r l total).1 + r ≤ cap ∨ (shrinkAux cap r l total).2 = []) ∧
      ∃ dropped, l = dropped ++ (shrinkAux cap r l total).2 := by
  intro l
  induction l with
  | nil =>
    intro total ht
    refine ⟨?_, Or.inr rfl, ⟨[], rfl⟩⟩
    simpa [shrinkAux, listSize] using ht
  | cons p rest ih =>
    obtain ⟨k, it⟩ := p
    intro total ht
    by_cases hgt : total + r > cap
    · have hrec : total - it.size = listSize rest := by
        rw [ht, listSize_cons]; omega
      have h := ih (total - it.size) hrec
      simp only [shrinkAux, if_pos hgt]
      refine ⟨h.1, h.2.1, ?_⟩
      obtain ⟨dropped, hd⟩ := h.2.2
      exact ⟨(k, it) :: dropped, by rw [List.cons_append, ← hd]⟩
    · simp only [shrinkAux, if_neg hgt]
      exact ⟨ht, Or.inl (by omega), ⟨[], rfl⟩⟩

/-- `_shrink_to_fit` preserves the size accounting, keeps the capacity,
reaches `total_size + reserve <= capacity` unless it emptied the cache,
and only drops a front segment of the recency list. -/
theorem shrink_to_fit_spec {K V : Type} (c : LruCache K V) (r : Nat)
    (hts : c.total_size = listSize c.lru) :
    (c.shrink_to_fit r).total_size = listSize (c.shrink_to_fit r).lru ∧
    (c.shrink_to_fit r).capacity = c.capacity ∧
    ((c.shrink_to_fit r).total_size + r ≤ c.capacity ∨
      (c.shrink_to_fit r).lru = []) ∧
    ∃ dropped, c.lru = dropped ++ (c.shrink_to_fit r).lru := by
  have h := shrinkAux_spec c.capacity r c.lru c.total_size hts
  exact ⟨h.1, rfl, h.2.1, h.2.2⟩

theorem keys_nodup_of_append {K V : Type} {l d res : List (K × CacheItem V)}
    (h : l = d ++ res) (hnd : (l.map Prod.fst).Nodup) :
    (res.map Prod.fst).Nodup := by
  subst h
  simp only [List.map_append, List.nodup_append] at hnd
  exact hnd.2.1

theorem not_mem_keys_of_append {K V : Type} {k : K}
    {l d res : List (K × CacheItem V)}
    (h : l = d ++ res) (hk : k ∉ l.map Prod.fst) : k ∉ res.map Prod.fst := by
  subst h
  simp only [List.map_append, List.mem_append, not_or] at hk
  exact hk.2

theorem listSize_nil {K V : Type} : listSize ([] : List (K × CacheItem V)) = 0 :=
  rfl

theorem keys_nodup_append_single {K V : Type} {l : List (K × CacheItem V)}
    {k : K} {it : CacheItem V} (hnd : (l.map Prod.fst).Nodup)
    (hnm : k ∉ l.map Prod.fst) :
    ((l ++ [(k, it)]).map Prod.fst).Nodup := by
  rw [List.map_append]
  refine hnd.append (by simp) ?_
  intro a ha hb
  simp only [List.map_cons, List.map_nil, List.mem_singleton] at hb
  subst hb
  exact hnm ha

/-- The shrink-then-insert tail of `put`, for a state `c1` (the cache
after the replacement removal) satisfying the representation invariant
with the new key absent: the result is some front list `l` (the
survivors of the eviction loop) with the new entry appended at the
back, the capacity unchanged, the total being the sum over `l` plus the
new size, and either the shrink target was met or the loop emptied the
cache. -/
theorem put_decomp_of {K V : Type} [DecidableEq K] (c1 : LruCache K V)
    (key : K) (val : V) (size : Nat) (cap : Nat)
    (hts1 : c1.total_size = listSize c1.lru)
    (hnd1 : (c1.lru.map Prod.fst).Nodup)
    (hnm1 : key ∉ c1.lru.map Prod.fst)
    (hcap1 : c1.capacity = cap) :
    ∃ l, ({ c1.shrink_to_fit size with
          lru := lhmInsert (c1.shrink_to_fit size).lru key ⟨val, size⟩,
          total_size := (c1.shrink_to_fit size).total_size + size }
            : LruCache K V) =
        { lru := l ++ [(key, ⟨val, size⟩)], capacity := cap,
          total_size := listSize l + size } ∧
      key ∉ l.map Prod.fst ∧ (l.map Prod.fst).Nodup ∧
      (listSize l + size ≤ cap ∨ l = []) := by
  obtain ⟨hts2, hcap2, hbound2, dropped, hdrop⟩ := shrink_to_fit_spec c1 size hts1
  have hnm2 : key ∉ (c1.shrink_to_fit size).lru.map Prod.fst :=
    not_mem_keys_of_append hdrop hnm1
  have hnd2 : ((c1.shrink_to_fit size).lru.map Prod.fst).Nodup :=
    keys_nodup_of_append hdrop hnd1
  refine ⟨(c1.shrink_to_fit size).lru, ?_, hnm2, hnd2, ?_⟩
  · rw [lhmInsert_not_mem _ hnm2]
    show LruCache.mk ((c1.shrink_to_fit size).lru ++ [(key, ⟨val, size⟩)])
      (c1.shrink_to_fit size).capacity
      ((c1.shrink_to_fit size).total_size + size) = _
    rw [hcap2, hcap1, hts2]
  · rcases hbound2 with h | h
    · refine Or.inl ?_
      rw [← hts2, ← hcap1]
      exact h
    · exact Or.inr h

/-- Decomposition of `put` on a cache satisfying the representation
invariant: the result is some front list `l` (the survivors of the
replacement removal and the eviction loop) with the new entry appended
at the back, the capacity unchanged, the total being the sum over `l`
plus the new size, the new key absent from `l`, and either the shrink
target was met or the eviction loop emptied the cache. -/
theorem put_decomp {K V : Type} [DecidableEq K] (c : LruCache K V)
    (key : K) (val : V) (size : Nat) (hinv : c.Inv) :
    ∃ l, (c.put key val size).1 =
        { lru := l ++ [(key, ⟨val, size⟩)], capacity := c.capacity,
          total_size := listSize l + size } ∧
      key ∉ l.map Prod.fst ∧ (l.map Prod.fst).Nodup ∧
      (listSize l + size ≤ c.capacity ∨ l = []) := by
  obtain ⟨hts, hnd⟩ := hinv
  rcases lhmRemove_spec key c.lru with
    ⟨it0, rest0, heq, hsz, hsub, hnm⟩ | ⟨heq, hnm⟩
  · -- the key was resident: it is removed first, its size subtracted
    obtain ⟨l, hEq, h1, h2, h3⟩ := put_decomp_of
      { c with lru := rest0, total_size := c.total_size - it0.size }
      key val size c.capacity
      (by show c.total_size - it0.size = listSize rest0; omega)
      (hnd.sublist hsub) (hnm hnd) rfl
    refine ⟨l, ?_, h1, h2, h3⟩
    rw [← hEq]
    simp only [LruCache.put, heq]
  · -- the key was absent: the removal is a no-op
    obtain ⟨l, hEq, h1, h2, h3⟩ :=
      put_decomp_of c key val size c.capacity hts hnd hnm rfl
    refine ⟨l, ?_, h1, h2, h3⟩
    rw [← hEq]
    simp only [LruCache.put, heq]

/-- The facts about a single `put` needed by the capacity claims: the
representation invariant is preserved, the capacity is unchanged, and
when the declared size fits in the capacity the resulting total does
too. -/
theorem put_step {K V : Type} [DecidableEq K] {c : LruCache K V}
    {key : K} {val : V} {size : Nat} (hinv : c.Inv) :
    ((c.put key val size).1).Inv ∧
    ((c.put key val size).1).capacity = c.capacity ∧
    (size ≤ c.capacity → ((c.put key val size).1).total_size ≤ c.capacity) := by
  obtain ⟨l, hEq, hnm, hnd, hb⟩ := put_decomp c key val size hinv
  rw [hEq]
  refine ⟨⟨?_, ?_⟩, rfl, ?_⟩
  · show listSize l + size = listSize (l ++ [(key, ⟨val, size⟩)])
    simp [listSize_append, listSize_cons, listSize_nil]
  · exact keys_nodup_append_single hnd hnm
  · intro hsz
    rcases hb with h | h
    · exact h
    · subst h
      show listSize ([] : List (K × CacheItem V)) + size ≤ c.capacity
      rw [listSize_nil]
      omega

/-- A `get` at a key that sits at the back of the recency list (and
nowhere else) is a hit returning the stored entry. -/
theorem get_at_back {K V : Type} [DecidableEq K]
    {l : List (K × CacheItem V)} {key : K} {it : CacheItem V}
    {cap ts : Nat} (h : key ∉ l.map Prod.fst) :
    ((LruCache.mk (l ++ [(key, it)]) cap ts).get key).1 = some it.entry := by
  simp only [LruCache.get, lhmGetRefresh, lhmRemove_append_self it h]

/-- `get` preserves the representation invariant and leaves both the
running total and the capacity unchanged. -/
theorem get_step {K V : Type} [DecidableEq K] (c : LruCache K V) (k : K)
    (hinv : c.Inv) :
    ((c.get k).2).Inv ∧ ((c.get k).2).total_size = c.total_size ∧
    ((c.get k).2).capacity = c.capacity := by
  obtain ⟨hts, hnd⟩ := hinv
  rcases lhmRemove_spec k c.lru with
    ⟨it0, rest0, heq, hsz, hsub, hnm⟩ | ⟨heq, hnm⟩
  · have hget : c.get k = (some it0.entry, { c with lru := rest0 ++ [(k, it0)] }) := by
      simp only [LruCache.get, lhmGetRefresh, heq]
    rw [hget]
    refine ⟨⟨?_, ?_⟩, rfl, rfl⟩
    · show c.total_size = listSize (rest0 ++ [(k, it0)])
      rw [listSize_append, listSize_cons, listSize_nil]
      omega
    · exact keys_nodup_append_single (hnd.sublist hsub) (hnm hnd)
  · have hget : c.get k = (none, c) := by
      simp only [LruCache.get, lhmGetRefresh, heq]
    rw [hget]
    exact ⟨⟨hts, hnd⟩, rfl, rfl⟩

/-- `set_capacity` preserves the representation invariant, installs the
new capacity, brings the total within it, and only evicts a front
segment of the recency list. -/
theorem set_capacity_step {K V : Type} (c : LruCache K V) (n : Nat)
    (hinv : c.Inv) :
    ((c.set_capacity n)).Inv ∧ (c.set_capacity n).capacity = n ∧
    (c.set_capacity n).total_size ≤ n ∧
    ∃ dropped, c.lru = dropped ++ (c.set_capacity n).lru := by
  obtain ⟨hts, hnd⟩ := hinv
  obtain ⟨hts2, hcap2, hbound2, dropped, hdrop⟩ :=
    shrink_to_fit_spec { c with capacity := n } 0 hts
  have hcap : (c.set_capacity n).capacity = n := hcap2
  have hle : (c.set_capacity n).total_size ≤ n := by
    rcases hbound2 with h | h
    · exact by simpa using h
    · have h0 : (c.set_capacity n).total_size = 0 := by
        show ({ c with capacity := n }.shrink_to_fit 0).total_size = 0
        rw [hts2, h, listSize_nil]
      omega
  exact ⟨⟨hts2, keys_nodup_of_append hdrop hnd⟩, hcap, hle, ⟨dropped, hdrop⟩⟩

/-- Every cache operation preserves the representation invariant. -/
theorem applyOp_inv {K V : Type} [DecidableEq K] (c : LruCache K V)
    (op : CacheOp K V) (hinv : c.Inv) : (applyOp c op).Inv := by
  cases op with
  | put k v s => exact (put_step hinv).1
  | get k => exact (get_step c k hinv).1
  | set_capacity n => exact (set_capacity_step c n hinv).1
  | get_capacity => exact hinv

/-- Running any sequence of cache operations preserves the
representation invariant. -/
theorem runOps_inv {K V : Type} [DecidableEq K] :
    ∀ (ops : List (CacheOp K V)) (c : LruCache K V), c.Inv →
      (runOps c ops).Inv
  | [], _, h => h
  | op :: rest, c, h => runOps_inv rest (applyOp c op) (applyOp_inv c op h)

/-- The fresh cache satisfies the representation invariant. -/
theorem new_inv {K V : Type} (n : Nat) : (LruCache.new n : LruCache K V).Inv :=
  ⟨rfl, List.nodup_nil⟩

/-- Along a sequence of `put`s, a cache satisfying the representation
invariant with capacity `C` whose declared sizes all fit in `C` keeps
`total_size` at most `C`. -/
theorem runPuts_le {K V : Type} [DecidableEq K] {C : Nat} :
    ∀ (ops : List (K × V × Nat)) (c : LruCache K V), c.Inv → c.capacity = C →
      c.total_size ≤ C → (∀ op ∈ ops, op.2.2 ≤ C) →
      (runPuts c ops).total_size ≤ C := by
  intro ops
  induction ops with
  | nil => intro c _ _ hle _; exact hle
  | cons op rest ih =>
    obtain ⟨k, v, s⟩ := op
    intro c hinv hcap hle hs
    have hstep := @put_step K V _ c k v s hinv
    have hs0 : s ≤ C := hs (k, v, s) (List.mem_cons_self _ _)
    exact ih (c.put k v s).1 hstep.1 (by rw [hstep.2.1, hcap])
      (by rw [← hcap]; exact hstep.2.2 (by rw [hcap]; exact hs0))
      (fun op hop => hs op (List.mem_cons_of_mem _ hop))

/-- Claim C1: for every sequence of `put` operations on a cache created
with capacity `C`, in which every individual put's declared size is at
most `C`, after each put completes (i.e. after every prefix of the
sequence) the cache's `total_size` is at most `C`. -/
theorem put_sequence_respects_capacity {K V : Type} [DecidableEq K]
    (C : Nat) (ops : List (K × V × Nat))
    (hs : ∀ op ∈ ops, op.2.2 ≤ C) :
    ∀ pre suf : List (K × V × Nat), ops = pre ++ suf →
      (runPuts (LruCache.new C : LruCache K V) pre).total_size ≤ C := by
  intro pre suf hsplit
  refine runPuts_le pre _ (new_inv C) rfl (Nat.zero_le C) ?_
  intro op hop
  exact hs op (by rw [hsplit]; exact List.mem_append_left _ hop)

/-- Witness for C1: a concrete sequence of two fitting puts on a cache
of capacity 2. -/
theorem put_sequence_respects_capacity_witness :
    (runPuts (LruCache.new 2 : LruCache Nat Nat) [(0, 5, 1), (1, 6, 2)]).total_size
      ≤ 2 :=
  put_sequence_respects_capacity 2 [(0, 5, 1), (1, 6, 2)] (by decide)
    [(0, 5, 1), (1, 6, 2)] [] rfl

/-- Claim C2: after any sequence of `put`/`get`/`set_capacity`/
`get_capacity` operations on a freshly created cache, `total_size`
equals the exact sum of the declared sizes of the currently-resident
entries; for the fresh cache itself it is 0. -/
theorem total_size_exact_sum {K V : Type} [DecidableEq K] (C : Nat)
    (ops : List (CacheOp K V)) :
    (LruCache.new C : LruCache K V).total_size = 0 ∧
    (runOps (LruCache.new C : LruCache K V) ops).total_size =
      listSize (runOps (LruCache.new C : LruCache K V) ops).lru :=
  ⟨rfl, (runOps_inv ops _ (new_inv C)).1⟩

/-- Claim C3: a `put` whose declared size strictly exceeds the
configured capacity still terminates — the eviction loop stops on the
empty cache (the resulting recency list is exactly the new entry) —
the entry is inserted anyway, a `get` for that key immediately
afterwards returns the value, and `total_size` then exceeds the
(unchanged) `capacity`. -/
theorem oversized_put_admitted {K V : Type} [DecidableEq K]
    (c : LruCache K V) (key : K) (val : V) (size : Nat)
    (hinv : c.Inv) (hover : c.capacity < size) :
    (c.put key val size).1.lru = [(key, ⟨val, size⟩)] ∧
    ((c.put key val size).1.get key).1 = some val ∧
    (c.put key val size).1.capacity = c.capacity ∧
    (c.put key val size).1.capacity < (c.put key val size).1.total_size := by
  obtain ⟨l, hEq, hnm, hnd, hb⟩ := put_decomp c key val size hinv
  have hl : l = [] := by
    rcases hb with h | h
    · exfalso; omega
    · exact h
  subst hl
  rw [hEq]
  refine ⟨rfl, ?_, rfl, ?_⟩
  · exact get_at_back (by simp)
  · show c.capacity < listSize ([] : List (K × CacheItem V)) + size
    rw [listSize_nil]
    omega

/-- Witness for C3: size 3 into a fresh cache of capacity 2. -/
theorem oversized_put_admitted_witness :
    ((LruCache.new 2 : LruCache Nat Nat).put 0 7 3).1.lru = [(0, ⟨7, 3⟩)] ∧
    (((LruCache.new 2 : LruCache Nat Nat).put 0 7 3).1.get 0).1 = some 7 ∧
    ((LruCache.new 2 : LruCache Nat Nat).put 0 7 3).1.capacity = 2 ∧
    ((LruCache.new 2 : LruCache Nat Nat).put 0 7 3).1.capacity <
      ((LruCache.new 2 : LruCache Nat Nat).put 0 7 3).1.total_size :=
  oversized_put_admitted (LruCache.new 2) 0 7 3 ⟨rfl, List.nodup_nil⟩ (by decide)

/-- The C4 scenario: capacity 200; put key 0 (size 100), put key 1
(size 100), a hit `get 0`, then put key 2 (size 100). -/
def recencyScenario : LruCache Nat Nat :=
  (((((LruCache.new 200).put 0 10 100).1.put 1 11 100).1.get 0).2.put 2 12 100).1

/-- Claim C4: a successful `get` marks the entry most-recently-used: in
the capacity-200 scenario (A = key 0, B = key 1, C = key 2, each of
size 100, with a hit on A between B and C), B is evicted while A and C
are still retrievable with their values. -/
theorem get_refreshes_recency :
    (((((LruCache.new 200 : LruCache Nat Nat).put 0 10 100).1.put 1 11 100).1.get 0).1
      = some 10) ∧
    (recencyScenario.get 1).1 = none ∧
    (recencyScenario.get 0).1 = some 10 ∧
    (recencyScenario.get 2).1 = some 12 := by
  decide

/-- Claim C5: two `put`s under the same key replace rather than merge:
afterwards the key's entry carries the second value and size (at the
back of the recency order), a `get` returns the second value, and
`total_size` accounts for the second size only — it is the sum over the
other resident entries plus `s2`, the first put's `s1` having been
fully subtracted. -/
theorem put_replaces_same_key {K V : Type} [DecidableEq K]
    (c : LruCache K V) (key : K) (v1 v2 : V) (s1 s2 : Nat)
    (hinv : c.Inv) :
    ((((c.put key v1 s1).1.put key v2 s2).1.get key).1 = some v2) ∧
    ∃ l, ((c.put key v1 s1).1.put key v2 s2).1.lru = l ++ [(key, ⟨v2, s2⟩)] ∧
      key ∉ l.map Prod.fst ∧
      ((c.put key v1 s1).1.put key v2 s2).1.total_size = listSize l + s2 := by
  have hinv1 := (@put_step K V _ c key v1 s1 hinv).1
  obtain ⟨l, hEq, hnm, hnd, hb⟩ := put_decomp (c.put key v1 s1).1 key v2 s2 hinv1
  rw [hEq]
  exact ⟨get_at_back hnm, ⟨l, rfl, hnm, rfl⟩⟩

/-- Witness for C5: same key put twice (sizes 3 then 4) into a fresh
cache of capacity 10. -/
theorem put_replaces_same_key_witness :
    (((((LruCache.new 10 : LruCache Nat Nat).put 0 1 3).1.put 0 2 4).1.get 0).1
      = some 2) ∧
    ∃ l, (((LruCache.new 10 : LruCache Nat Nat).put 0 1 3).1.put 0 2 4).1.lru
        = l ++ [(0, ⟨2, 4⟩)] ∧
      0 ∉ l.map Prod.fst ∧
      (((LruCache.new 10 : LruCache Nat Nat).put 0 1 3).1.put 0 2 4).1.total_size
        = listSize l + 4 :=
  put_replaces_same_key (LruCache.new 10) 0 1 2 3 4 ⟨rfl, List.nodup_nil⟩

/-- Claim C6: `set_capacity` installs the new capacity and evicts
least-recently-used entries (a front segment of the recency order);
under the representation invariant the resulting total is at most the
new capacity (the empty-cache stop included, the total then being 0).
Concretely: with capacity 100 and one resident entry of size 100,
`set_capacity 0` evicts it, a `get` then misses, and restoring
capacity 100 does not bring the entry back. -/
theorem set_capacity_installs_and_evicts {K V : Type} [DecidableEq K]
    (c : LruCache K V) (n : Nat) (hinv : c.Inv) :
    ((c.set_capacity n).capacity = n ∧
      (c.set_capacity n).total_size ≤ n ∧
      ∃ dropped, c.lru = dropped ++ (c.set_capacity n).lru) ∧
    ((((LruCache.new 100 : LruCache Nat Nat).put 7 42 100).1.set_capacity 0).get 7).1
      = none ∧
    (((((LruCache.new 100 : LruCache Nat Nat).put 7 42 100).1.set_capacity 0).set_capacity 100).get 7).1
      = none := by
  obtain ⟨h1, h2, h3, h4⟩ := set_capacity_step c n hinv
  exact ⟨⟨h2, h3, h4⟩, by decide, by decide⟩

/-- Witness for C6: shrinking a fresh cache of capacity 5 to 0. -/
theorem set_capacity_installs_and_evicts_witness :
    (((LruCache.new 5 : LruCache Nat Nat).set_capacity 0).capacity = 0 ∧
      ((LruCache.new 5 : LruCache Nat Nat).set_capacity 0).total_size ≤ 0 ∧
      ∃ dropped, (LruCache.new 5 : LruCache Nat Nat).lru
        = dropped ++ ((LruCache.new 5 : LruCache Nat Nat).set_capacity 0).lru) ∧
    ((((LruCache.new 100 : LruCache Nat Nat).put 7 42 100).1.set_capacity 0).get 7).1
      = none ∧
    (((((LruCache.new 100 : LruCache Nat Nat).put 7 42 100).1.set_capacity 0).set_capacity 100).get 7).1
      = none :=
  set_capacity_installs_and_evicts (LruCache.new 5) 0 ⟨rfl, List.nodup_nil⟩

/-- `std::usize::MAX` (the `remaining` allowance used by `FileSlice`
for a negative length, meaning "until end of file"). -/
def usizeMax : Nat := 2 ^ 64 - 1

/-- Model of `struct FileSlice { file: File, remaining: usize }`: the
open `File` with its cursor is modelled as the file's byte `content`
plus the current position `pos`; `remaining` is the byte allowance left
to hand out. -/
structure FileSlice where
  content : List Nat
  pos : Nat
  remaining : Nat
deriving Repr, DecidableEq

/-- `FileSlice::new(file, offset, length)`: a negative `length` means
read until end of file (`remaining = usize::MAX`), otherwise at most
`length` bytes; then seek to `offset` (seeking a regular file past its
end succeeds, so the model is total). -/
def FileSlice.new (content : List Nat) (offset : Nat) (length : Int) :
    FileSlice :=
  { content := content
    pos := offset
    remaining := if length < 0 then usizeMax else length.toNat }

/-- The `Read` impl for `FileSlice`: clamp the request to
`min remaining bufLen`, read from the file (a regular file returns
`min` of the request and the bytes left before end of file, advancing
the cursor; the pure in-memory file cannot fail), and subtract the
bytes read from `remaining`.  Returns the byte count together with the
updated slice. -/
def FileSlice.read (s : FileSlice) (bufLen : Nat) : Nat × FileSlice :=
  let toread := min s.remaining bufLen
  let nread := min toread (s.content.length - s.pos)
  (nread, { s with pos := s.pos + nread, remaining := s.remaining - nread })

/-- The bytes `std::io::copy` drains out of a `FileSlice`: repeated
reads yield exactly the file's bytes from the seek position, capped at
the remaining allowance. -/
def FileSlice.readAll (s : FileSlice) : List Nat :=
  (s.content.drop s.pos).take s.remaining

/-- `_QUICKHASH1_CHECKSUMSIZE`: size of the hexadecimal representation
of a SHA256 hash including the final NUL byte. -/
def QUICKHASH1_CHECKSUMSIZE : Nat := 32 * 2 + 1

/-- Model of `struct QuickHash1 { hasher: Option<Sha256>, checksum }`.
The external `sha2::Sha256` state is modelled as the list of bytes
absorbed so far; `hasher = none` is the disabled state (after
`hasher.take()`).  `checksum` is the FFI scratch buffer that keeps a
returned checksum string alive; it never influences hashing. -/
structure QuickHash1 where
  hasher : Option (List Nat)
  checksum : List Nat
deriving Repr, DecidableEq

/-- `QuickHash1::new()`: an active accumulator with an empty stream and
a zeroed checksum buffer. -/
def QuickHash1.new : QuickHash1 :=
  { hasher := some [], checksum := List.replicate QUICKHASH1_CHECKSUMSIZE 0 }

/-- `QuickHash1::update(data)`: absorb `data` if the hasher is active,
no-op if disabled. -/
def QuickHash1.update (q : QuickHash1) (data : List Nat) : QuickHash1 :=
  match q.hasher with
  | some h => { q with hasher := some (h ++ data) }
  | none => q

/-- The I/O errors the model can produce: the path could not be opened
or read (`File::open` and the subsequent reads are the fallible steps
of `update_from_file_slice`). -/
inductive IoError where
  | cannotOpen (filename : String)
deriving Repr, DecidableEq

/-- `QuickHash1::update_from_file_slice(filename, offset, length)`,
against a filesystem oracle `fs` (`none` = the path cannot be opened or
read).  While active: open the file (propagating the error), build the
`FileSlice` and absorb everything `std::io::copy` drains from it.
While disabled: skip everything and return `Ok(())`. -/
def QuickHash1.update_from_file_slice (fs : String → Option (List Nat))
    (q : QuickHash1) (filename : String) (offset : Nat) (length : Int) :
    Except IoError QuickHash1 :=
  match q.hasher with
  | some h =>
    match fs filename with
    | none => .error (.cannotOpen filename)
    | some content =>
      .ok { q with
        hasher := some (h ++ (FileSlice.new content offset length).readAll) }
  | none => .ok q

/-- `QuickHash1::get_string()`: finalize a clone of the hasher (the
digest of the absorbed stream, via an abstract `digest` function for
the SHA256 primitive) without touching the accumulator state; `none`
when disabled. -/
def QuickHash1.get_string (digest : List Nat → String) (q : QuickHash1) :
    Option String × QuickHash1 :=
  (q.hasher.map digest, q)

/-- `_openslide_hash_disable`: `hash.hasher.take()` leaves the
accumulator with `hasher = none`. -/
def QuickHash1.disable (q : QuickHash1) : QuickHash1 :=
  { q with hasher := none }

/-- The mutating hash operations, for stating properties of arbitrary
operation sequences. -/
inductive HashOp where
  | update (data : List Nat)
  | update_from_file (filename : String) (offset : Nat) (length : Int)
  | disable
deriving Repr

/-- Run one hash operation against the filesystem oracle `fs`, keeping
the state (a failed `update_from_file` leaves the state unchanged,
exactly as the code: the error fires before anything is absorbed). -/
def applyHashOp (fs : String → Option (List Nat)) (q : QuickHash1) :
    HashOp → QuickHash1
  | .update data => q.update data
  | .update_from_file filename offset length =>
    match q.update_from_file_slice fs filename offset length with
    | .ok q2 => q2
    | .error _ => q
  | .disable => q.disable

/-- Run a sequence of hash operations. -/
def runHashOps (fs : String → Option (List Nat)) (q : QuickHash1) :
    List HashOp → QuickHash1
  | [] => q
  | op :: rest => runHashOps fs (applyHashOp fs q op) rest

/-- Counterexample to claim C7 as stated: in the DISABLED state,
`update_from_file_slice` on a path that cannot be opened does not
return an I/O error — the disabled check short-circuits before
`File::open` is ever attempted, and the call returns success with the
state unchanged. -/
theorem disabled_hash_swallows_io_counterexample :
    QuickHash1.update_from_file_slice (fun _ => none)
      QuickHash1.new.disable "missing.tiff" 0 (-1)
      = Except.ok QuickHash1.new.disable := by
  rfl

/-- Claim C7 (amended): for an accumulator in the ACTIVE state,
`update_from_file_slice` on a path that cannot be opened or read
propagates an I/O error, distinguishable from the disabled no-op
outcome (which returns success); in the disabled state the call is a
no-op returning success without attempting any I/O. -/
theorem hash_io_error_propagated (fs : String → Option (List Nat))
    (q : QuickHash1) (filename : String) (offset : Nat) (length : Int)
    (st : List Nat) (hactive : q.hasher = some st)
    (hbad : fs filename = none) :
    q.update_from_file_slice fs filename offset length
      = Except.error (IoError.cannotOpen filename) ∧
    (q.disable).update_from_file_slice fs filename offset length
      = Except.ok q.disable ∧
    q.update_from_file_slice fs filename offset length
      ≠ (q.disable).update_from_file_slice fs filename offset length := by
  have h1 : q.update_from_file_slice fs filename offset length
      = Except.error (IoError.cannotOpen filename) := by
    simp only [QuickHash1.update_from_file_slice, hactive, hbad]
  have h2 : (q.disable).update_from_file_slice fs filename offset length
      = Except.ok q.disable := rfl
  refine ⟨h1, h2, ?_⟩
  rw [h1, h2]
  exact fun h => Except.noConfusion h

/-- Witness for C7 (amended): an active fresh accumulator against a
filesystem where no path can be opened. -/
theorem hash_io_error_propagated_witness :
    QuickHash1.update_from_file_slice (fun _ => none) QuickHash1.new "f" 0 (-1)
      = Except.error (IoError.cannotOpen "f") ∧
    QuickHash1.update_from_file_slice (fun _ => none) QuickHash1.new.disable
      "f" 0 (-1) = Except.ok QuickHash1.new.disable ∧
    QuickHash1.update_from_file_slice (fun _ => none) QuickHash1.new "f" 0 (-1)
      ≠ QuickHash1.update_from_file_slice (fun _ => none)
          QuickHash1.new.disable "f" 0 (-1) :=
  hash_io_error_propagated (fun _ => none) QuickHash1.new "f" 0 (-1) [] rfl rfl

/-- Claim C8: disabling is terminal: after `disable`, any sequence of
further operations (byte updates, file-region updates against any
filesystem, or repeated disables) leaves the accumulator completely
unchanged, and `get_string` returns no result forever after, even if
data had been absorbed before disabling (the starting accumulator `q`
is arbitrary). -/
theorem disable_is_terminal (fs : String → Option (List Nat))
    (q : QuickHash1) (ops : List HashOp) (digest : List Nat → String) :
    runHashOps fs q.disable ops = q.disable ∧
    ((runHashOps fs q.disable ops).get_string digest).1 = none := by
  have hstep : ∀ op, applyHashOp fs q.disable op = q.disable := by
    intro op
    cases op with
    | update data => rfl
    | update_from_file filename offset length => rfl
    | disable => rfl
  have hrun : runHashOps fs q.disable ops = q.disable := by
    induction ops with
    | nil => rfl
    | cons op rest ih =>
      show runHashOps fs (applyHashOp fs q.disable op) rest = q.disable
      rw [hstep op]
      exact ih
  refine ⟨hrun, ?_⟩
  rw [hrun]
  rfl

/-- Claim C9: every `FileSlice` read returns a byte count at most the
remaining allowance and at most the caller's buffer length; once the
allowance is zero, or the cursor has reached end of file, a read
returns zero bytes with the slice unchanged (and without error — reads
of the in-memory file model are total), so every further read also
returns zero. -/
theorem fileslice_read_bounded (s : FileSlice) (bufLen : Nat) :
    (s.read bufLen).1 ≤ s.remaining ∧
    (s.read bufLen).1 ≤ bufLen ∧
    (s.remaining = 0 → s.read bufLen = (0, s)) ∧
    (s.content.length ≤ s.pos → s.read bufLen = (0, s)) := by
  refine ⟨?_, ?_, ?_, ?_⟩
  · show min (min s.remaining bufLen) (s.content.length - s.pos) ≤ s.remaining
    omega
  · show min (min s.remaining bufLen) (s.content.length - s.pos) ≤ bufLen
    omega
  · intro h
    have hm : min s.remaining bufLen = 0 := by omega
    simp [FileSlice.read, hm]
  · intro h
    simp [FileSlice.read, Nat.sub_eq_zero_of_le h]

/-- Witness for C9: a depleted slice (allowance 0) returns zero bytes
and an unchanged state. -/
theorem fileslice_read_bounded_witness :
    (FileSlice.mk [1, 2, 3] 1 0).read 5 = (0, FileSlice.mk [1, 2, 3] 1 0) :=
  (fileslice_read_bounded (FileSlice.mk [1, 2, 3] 1 0) 5).2.2.1 rfl

/-- Claim C10: reading the digest is non-destructive — `get_string`
finalizes a clone of the internal hasher: the accumulator state is
returned unchanged, two consecutive calls with no intervening update
return the same string, and an `update` performed after a `get_string`
continues accumulating onto the entire previously absorbed stream
rather than restarting. -/
theorem get_string_nondestructive (digest : List Nat → String)
    (q : QuickHash1) (data : List Nat) :
    ((q.get_string digest).2.get_string digest).1 = (q.get_string digest).1 ∧
    (q.get_string digest).2 = q ∧
    ((q.get_string digest).2.update data).hasher
      = q.hasher.map (fun h => h ++ data) := by
  refine ⟨rfl, rfl, ?_⟩
  show (q.update data).hasher = q.hasher.map (fun h => h ++ data)
  cases hq : q.hasher with
  | none => simp [QuickHash1.update, hq]
  | some h => simp [QuickHash1.update, hq]
